import Mathlib

/-!
Verification of the metadata utilities, the provenance logger, the
run-setup directory policy of esmvaltool/diag_scripts/shared/_base.py,
and the observation-loading assertion guards of the LMU_ESACCI diagnostic
scripts, via a shallow embedding in Lean.

Modelling conventions:
* a Python dict is an ordered association list (insertion order is the
  list order, keys unique when built by dict operations);
* metadata attribute values are strings (the code only ever compares
  them with string equality or sorts on their lowered string form, so
  the embedding takes str() as the identity);
* filesystem effects are an explicit record of existing directories and
  file contents; raising an exception is an Except error.
-/

/-- A metadata record: one dictionary describing a preprocessed data
file, modelled as an ordered association list from attribute name to
value. -/
abbrev Record := List (String × String)

/-- The per-record test of select_metadata: the conjunction
`a in attribs and (attribs[a] == attributes[a] or attributes[a] == '*')`
over all constrained attributes. -/
def matchesAttributes (attribs : Record) (attributes : List (String × String)) : Bool :=
  attributes.all fun av =>
    match attribs.lookup av.1 with
    | some v => v == av.2 || av.2 == "*"
    | none => false

/-- select_metadata from _base.py: the loop appending every record that
matches all constraints to the selection list. -/
def select_metadata (metadata : List Record) (attributes : List (String × String)) :
    List Record :=
  metadata.foldl
    (fun selection attribs =>
      if matchesAttributes attribs attributes then selection ++ [attribs] else selection)
    []

/-- Spec-level reading of one constraint set: every constrained
attribute is present and its value equals the required value, or the
required value is the wildcard. -/
def SatisfiesConstraints (r : Record) (cs : List (String × String)) : Prop :=
  ∀ av ∈ cs, ∃ v, r.lookup av.1 = some v ∧ (v = av.2 ∨ av.2 = "*")

/-- Python tuple comparison on the string tuples produced by the sort
key: lexicographic, ties broken by the next component. -/
def lexLe : List String → List String → Bool
  | [], _ => true
  | _ :: _, [] => false
  | a :: as, b :: bs => if a < b then true else if a == b then lexLe as bs else false

/-- normalized_variable_key from sorted_metadata:
tuple(str(attributes.get(k, '')).lower() for k in sort). -/
def normalized_variable_key (sort : List String) (attributes : Record) : List String :=
  sort.map fun k => ((attributes.lookup k).getD "").toLower

/-- sorted_metadata from _base.py: Python's stable sorted() on the
normalized key, modelled by the stable List.mergeSort.  The str overload
of the sort argument is the singleton list. -/
def sorted_metadata (metadata : List Record) (sort : List String) : List Record :=
  metadata.mergeSort fun a b =>
    lexLe (normalized_variable_key sort a) (normalized_variable_key sort b)

/-- The sort argument of sorted_group_metadata: either the Python
literal True (sort the groups but not the member lists) or one or more
attribute names. -/
inductive SortSpec where
  | groupsOnly : SortSpec
  | byKeys : List String → SortSpec

/-- normalized_group_key from sorted_group_metadata:
'' if key is None else str(key).lower(). -/
def normalized_group_key : Option String → String
  | none => ""
  | some key => key.toLower

/-- sorted_group_metadata from _base.py: iterate the group keys in
sorted order (stable sort on the normalized key) and rebuild the
mapping, sorting each member list with sorted_metadata; the Python
statement `if sort is True: sort = []` is the groupsOnly case. -/
def sorted_group_metadata (metadata_groups : List (Option String × List Record))
    (sort : SortSpec) : List (Option String × List Record) :=
  let sortKeys : List String := match sort with | .groupsOnly => [] | .byKeys ks => ks
  ((metadata_groups.map Prod.fst).mergeSort fun a b =>
      decide (normalized_group_key a ≤ normalized_group_key b)).map
    fun key => (key, sorted_metadata ((metadata_groups.lookup key).getD []) sortKeys)

/-- Appending a record to the member list of an existing group key,
the dict update groups[key].append(attributes) of group_metadata. -/
def addToGroup (groups : List (Option String × List Record)) (key : Option String)
    (r : Record) : List (Option String × List Record) :=
  match groups with
  | [] => []
  | (k, ms) :: rest =>
    if k == key then (k, ms ++ [r]) :: rest else (k, ms) :: addToGroup rest key r

/-- One iteration of the loop of group_metadata: fetch the record's key
with dict.get, create the group on first sight (at the end, preserving
dict insertion order) and append the record to its group. -/
def groupStep (attr : String) (groups : List (Option String × List Record))
    (attributes : Record) : List (Option String × List Record) :=
  let key := attributes.lookup attr
  if (groups.map Prod.fst).contains key then addToGroup groups key attributes
  else groups ++ [(key, [attributes])]

/-- group_metadata from _base.py: the grouping loop, then the optional
sorting step (a falsy sort argument, modelled as none, skips it). -/
def group_metadata (metadata : List Record) (attr : String)
    (sort : Option SortSpec) : List (Option String × List Record) :=
  let groups := metadata.foldl (groupStep attr) []
  match sort with
  | none => groups
  | some s => sorted_group_metadata groups s

/-- The grouping keys of a metadata list in order of first occurrence,
which is exactly the key insertion order of the dict built by
group_metadata. -/
def keysInOrder (metadata : List Record) (attr : String) : List (Option String) :=
  metadata.foldl
    (fun ks r =>
      let k := r.lookup attr
      if ks.contains k then ks else ks ++ [k])
    []

/-- A provenance record: the dictionary logged for one output file. -/
abbrev ProvRecord := List (String × String)

/-- The in-memory provenance table self.table: output filename to
provenance record, in insertion order. -/
abbrev ProvTable := List (String × ProvRecord)

namespace ProvenanceLogger

/-- ProvenanceLogger.log from _base.py: raise KeyError when the
filename is already a key of the table, otherwise add the mapping.  The
first component is the raised error message, the second the table after
the call. -/
def log (table : ProvTable) (filename : String) (record : ProvRecord) :
    Option String × ProvTable :=
  if (table.map Prod.fst).contains filename then
    (some ("Provenance record for " ++ filename ++ " already exists."), table)
  else (none, table ++ [(filename, record)])

end ProvenanceLogger

/-- The filesystem state the provenance logger touches: the set of
existing directories and the YAML files with their parsed contents. -/
structure FileSystem where
  dirs : List String
  files : List (String × ProvTable)

/-- Writing a file with open(..., 'w'): replace the contents when the
path exists, create the file otherwise. -/
def setFile : List (String × ProvTable) → String → ProvTable → List (String × ProvTable)
  | [], path, t => [(path, t)]
  | (p, u) :: rest, path, t =>
    if p == path then (p, t) :: rest else (p, u) :: setFile rest path t

/-- How a with-block was left: normally or through an exception. -/
inductive ExitKind where
  | normal : ExitKind
  | raised : String → ExitKind

namespace ProvenanceLogger

/-- The fixed per-run log file os.path.join(work_dir,
'diagnostic_provenance.yml'). -/
def logFilePath (workDir : String) : String :=
  workDir ++ "/diagnostic_provenance.yml"

/-- ProvenanceLogger._save from _base.py: create the parent directory
of the log file when it does not exist, then serialize the whole table
to the log file.  os.path.dirname of the joined path is work_dir. -/
def _save (workDir : String) (table : ProvTable) (fs : FileSystem) : FileSystem :=
  let fs1 := if fs.dirs.contains workDir then fs
    else { fs with dirs := fs.dirs ++ [workDir] }
  { fs1 with files := setFile fs1.files (logFilePath workDir) table }

/-- ProvenanceLogger exit handler def __exit__(self, *_): it calls
_save whatever the exit kind is, since the exception arguments are
discarded. -/
def exitContext (kind : ExitKind) (workDir : String) (table : ProvTable)
    (fs : FileSystem) : FileSystem :=
  match kind with
  | .normal => _save workDir table fs
  | .raised _ => _save workDir table fs

end ProvenanceLogger

/-- A sequence of log calls inside one ProvenanceLogger session,
starting from the table loaded on entry; a failed call leaves the table
as it was and the session goes on with the next call. -/
def runSession (table : ProvTable) (ops : List (String × ProvRecord)) : ProvTable :=
  ops.foldl (fun t op => (ProvenanceLogger.log t op.1 op.2).2) table

/-- shutil.rmtree: the directory (with its data) stops existing. -/
def rmtree (fs : List String) (path : String) : List String :=
  fs.filter fun p => !(p == path)

/-- os.makedirs without exist_ok: FileExistsError when the path already
exists, otherwise the directory is created.  The error carries the
filesystem state at the moment of the raise. -/
def makedirs (fs : List String) (path : String) :
    Except (String × List String) (List String) :=
  if fs.contains path then Except.error ("FileExistsError: " ++ path, fs)
  else Except.ok (fs ++ [path])

/-- The output-directory phase of run_diagnostic from _base.py: collect
the requested output directories, find the existing ones, empty them
under --force, log the abort error when neither --force nor
--ignore-existing was given, then run the creation loop, which skips an
existing directory only under --ignore-existing.  The first component
records whether the abort error was logged; the second is the loop's
outcome, an uncaught FileExistsError aborting the script. -/
def run_diagnostic_dirs (fs : List String) (force ignoreExisting : Bool)
    (writeNetcdf writePlots : Bool) (workDir plotDir : String) :
    Bool × Except (String × List String) (List String) :=
  let outputDirectories :=
    (if writeNetcdf then [workDir] else []) ++ (if writePlots then [plotDir] else [])
  let existing := outputDirectories.filter fs.contains
  let loggedError := !existing.isEmpty && !force && !ignoreExisting
  let fs1 := if !existing.isEmpty && force then existing.foldl rmtree fs else fs
  let result := outputDirectories.foldlM
    (fun s d => if ignoreExisting && s.contains d then Except.ok s else makedirs s d) fs1
  (loggedError, result)

namespace AlbedoDiagnostic

/-- The variable dispatch ending AlbedoDiagnostic._load_observation_data
of alb_diagnostic.py: load the reference data through _load_cci_generic
when the diagnostic variable is alb, otherwise assert False,
'Not supported yet'. -/
def _load_observation_data (projVar : String) : Except String Unit :=
  if projVar == "alb" then Except.ok () else Except.error "Not supported yet"

end AlbedoDiagnostic

namespace LandCoverDiagnostic

/-- The variable dispatch ending
LandCoverDiagnostic._load_observation_data of lc_diagnostic.py: load the
reference data through _load_cci_generic when the variable is one of
baresoilFrac, grassNcropFrac, shrubNtreeFrac, otherwise assert False,
'Not supported yet'. -/
def _load_observation_data (var : String) : Except String Unit :=
  if ["baresoilFrac", "grassNcropFrac", "shrubNtreeFrac"].contains var then Except.ok ()
  else Except.error "Not supported yet"

end LandCoverDiagnostic

lemma foldl_append_filter (p : α → Bool) (l : List α) (acc : List α) :
    l.foldl (fun s a => if p a then s ++ [a] else s) acc = acc ++ l.filter p := by
  induction l generalizing acc with
  | nil => simp
  | cons a l ih =>
    by_cases h : p a = true
    · simp [List.foldl_cons, h, ih, List.filter_cons]
    · simp [List.foldl_cons, h, ih, List.filter_cons]

lemma select_metadata_eq_filter (metadata : List Record)
    (attributes : List (String × String)) :
    select_metadata metadata attributes =
      metadata.filter (fun r => matchesAttributes r attributes) := by
  simpa using foldl_append_filter (fun r => matchesAttributes r attributes) metadata []

lemma matchesAttributes_iff (r : Record) (cs : List (String × String)) :
    matchesAttributes r cs = true ↔ SatisfiesConstraints r cs := by
  unfold matchesAttributes SatisfiesConstraints
  rw [List.all_eq_true]
  apply forall_congr'
  intro av
  apply imp_congr_right
  intro _
  cases h : r.lookup av.1 with
  | none => simp
  | some v =>
    constructor
    · intro hb
      exact ⟨v, rfl, by simpa using hb⟩
    · rintro ⟨w, hw, hor⟩
      cases hw
      simpa using hor

/-- C1: select_metadata returns exactly the records satisfying every
constraint (wildcard matching any present attribute), and with no
constraint every record is returned. -/
theorem select_metadata_spec (metadata : List Record)
    (attributes : List (String × String)) :
    (∀ r, r ∈ select_metadata metadata attributes ↔
        r ∈ metadata ∧ SatisfiesConstraints r attributes)
    ∧ select_metadata metadata [] = metadata := by
  constructor
  · intro r
    rw [select_metadata_eq_filter, List.mem_filter, matchesAttributes_iff]
  · rw [select_metadata_eq_filter]
    simp [matchesAttributes]

lemma lookup_append_left {α β : Type} [BEq α] (t u : List (α × β)) (a : α) (b : β)
    (h : t.lookup a = some b) : (t ++ u).lookup a = some b := by
  induction t with
  | nil => simp [List.lookup] at h
  | cons p t ih =>
    obtain ⟨k, v⟩ := p
    cases hk : a == k with
    | true => simpa [List.lookup, hk] using h
    | false =>
      simp only [List.cons_append, List.lookup, hk] at h ⊢
      exact ih h

lemma lookup_append_new {α β : Type} [BEq α] [LawfulBEq α] (t : List (α × β)) (a : α)
    (b : β) (h : a ∉ t.map Prod.fst) : (t ++ [(a, b)]).lookup a = some b := by
  induction t with
  | nil => simp [List.lookup]
  | cons p t ih =>
    obtain ⟨k, v⟩ := p
    simp only [List.map_cons, List.mem_cons] at h
    push_neg at h
    have hk : (a == k) = false := by
      simpa [beq_iff_eq] using h.1
    simp only [List.cons_append, List.lookup, hk]
    exact ih h.2

lemma log_preserves_lookup (t : ProvTable) (fn g : String) (r s : ProvRecord)
    (h : t.lookup fn = some r) :
    ((ProvenanceLogger.log t g s).2).lookup fn = some r := by
  unfold ProvenanceLogger.log
  by_cases hc : (t.map Prod.fst).contains g = true
  · rw [if_pos hc]
    exact h
  · rw [if_neg hc]
    exact lookup_append_left t [(g, s)] fn r h

lemma runSession_preserves_lookup (ops : List (String × ProvRecord)) (t : ProvTable)
    (fn : String) (r : ProvRecord) (h : t.lookup fn = some r) :
    (runSession t ops).lookup fn = some r := by
  induction ops generalizing t with
  | nil => simpa [runSession] using h
  | cons op ops ih =>
    simp only [runSession, List.foldl_cons]
    exact ih _ (log_preserves_lookup t fn op.1 r op.2 h)

/-- C3: a log call whose filename is already a key of the table raises
the duplicate-record error (and leaves the table as it is); a
successful call appends the filename-to-record mapping, which the table
then contains. -/
theorem provenance_log_spec (table : ProvTable) (filename : String) (record : ProvRecord) :
    (filename ∈ table.map Prod.fst →
      ProvenanceLogger.log table filename record =
        (some ("Provenance record for " ++ filename ++ " already exists."), table))
    ∧ (filename ∉ table.map Prod.fst →
      ProvenanceLogger.log table filename record = (none, table ++ [(filename, record)])
      ∧ (ProvenanceLogger.log table filename record).2.lookup filename = some record) := by
  constructor
  · intro hmem
    have hc : (table.map Prod.fst).contains filename = true := by
      simpa using hmem
    unfold ProvenanceLogger.log
    rw [if_pos hc]
  · intro hmem
    have hc : ¬(table.map Prod.fst).contains filename = true := by
      simpa using hmem
    constructor
    · unfold ProvenanceLogger.log
      rw [if_neg hc]
    · unfold ProvenanceLogger.log
      rw [if_neg hc]
      exact lookup_append_new table filename record hmem

/-- C3 witness at concrete inputs: a duplicate filename is rejected
with the table unchanged, and a fresh filename is recorded. -/
theorem provenance_log_spec_witness :
    ProvenanceLogger.log [("a.nc", [("caption", "c")])] "a.nc" [] =
      (some ("Provenance record for " ++ "a.nc" ++ " already exists."),
        [("a.nc", [("caption", "c")])])
    ∧ (ProvenanceLogger.log [] "b.nc" [("caption", "c")]).2.lookup "b.nc" =
      some [("caption", "c")] :=
  ⟨(provenance_log_spec [("a.nc", [("caption", "c")])] "a.nc" []).1 (by simp),
    ((provenance_log_spec [] "b.nc" [("caption", "c")]).2 (by simp)).2⟩

/-- C10: when log raises because the filename is already present, the
table is left completely unchanged. -/
theorem provenance_log_atomic (table : ProvTable) (filename : String)
    (record : ProvRecord) (h : filename ∈ table.map Prod.fst) :
    (ProvenanceLogger.log table filename record).2 = table := by
  have hc : (table.map Prod.fst).contains filename = true := by simpa using h
  unfold ProvenanceLogger.log
  rw [if_pos hc]

/-- C10 witness at a concrete input: the failing duplicate log call
leaves the one-entry table unchanged. -/
theorem provenance_log_atomic_witness :
    (ProvenanceLogger.log [("out.nc", [])] "out.nc" [("caption", "x")]).2 =
      [("out.nc", [])] :=
  provenance_log_atomic [("out.nc", [])] "out.nc" [("caption", "x")] (by simp)

/-- C9: both observation-loading paths assert False exactly on an
unsupported variable: AlbedoDiagnostic accepts only alb, and
LandCoverDiagnostic accepts only baresoilFrac, grassNcropFrac and
shrubNtreeFrac; a supported variable raises no assertion. -/
theorem load_observation_data_assertion (v : String) :
    (AlbedoDiagnostic._load_observation_data v = Except.error "Not supported yet" ↔
      v ≠ "alb")
    ∧ (AlbedoDiagnostic._load_observation_data v = Except.ok () ↔ v = "alb")
    ∧ (LandCoverDiagnostic._load_observation_data v = Except.error "Not supported yet" ↔
      (v ≠ "baresoilFrac" ∧ v ≠ "grassNcropFrac" ∧ v ≠ "shrubNtreeFrac"))
    ∧ (LandCoverDiagnostic._load_observation_data v = Except.ok () ↔
      (v = "baresoilFrac" ∨ v = "grassNcropFrac" ∨ v = "shrubNtreeFrac")) := by
  refine ⟨?_, ?_, ?_, ?_⟩ <;>
    · by_cases h1 : v = "alb" <;>
        by_cases h2 : v = "baresoilFrac" <;>
          by_cases h3 : v = "grassNcropFrac" <;>
            by_cases h4 : v = "shrubNtreeFrac" <;>
              simp_all [AlbedoDiagnostic._load_observation_data,
                LandCoverDiagnostic._load_observation_data]

lemma lexLe_refl (xs : List String) : lexLe xs xs = true := by
  induction xs with
  | nil => rfl
  | cons a as ih => simp [lexLe, ih]

lemma lexLe_total (xs ys : List String) : lexLe xs ys = true ∨ lexLe ys xs = true := by
  induction xs generalizing ys with
  | nil => left; rfl
  | cons a as ih =>
    cases ys with
    | nil => right; rfl
    | cons b bs =>
      rcases lt_trichotomy a b with h | h | h
      · left; simp [lexLe, h]
      · subst h
        rcases ih bs with h' | h'
        · left; simp [lexLe, h']
        · right; simp [lexLe, h']
      · right; simp [lexLe, h]

lemma lexLe_trans (xs ys zs : List String) (h1 : lexLe xs ys = true)
    (h2 : lexLe ys zs = true) : lexLe xs zs = true := by
  induction xs generalizing ys zs with
  | nil => rfl
  | cons a as ih =>
    cases ys with
    | nil => simp [lexLe] at h1
    | cons b bs =>
      cases zs with
      | nil => simp [lexLe] at h2
      | cons c cs =>
        by_cases hab : a < b
        · by_cases hbc : b < c
          · simp [lexLe, lt_trans hab hbc]
          · simp [lexLe, hbc] at h2
            obtain ⟨hbc', _⟩ := h2
            subst hbc'
            simp [lexLe, hab]
        · simp [lexLe, hab] at h1
          obtain ⟨hab', h1'⟩ := h1
          subst hab'
          by_cases hac : a < c
          · simp [lexLe, hac]
          · simp [lexLe, hac] at h2
            obtain ⟨hac', h2'⟩ := h2
            subst hac'
            simp [lexLe, hac, ih bs cs h1' h2']

lemma sortKey_le_trans (ks : List String) :
    ∀ a b c : Record,
      lexLe (normalized_variable_key ks a) (normalized_variable_key ks b) = true →
      lexLe (normalized_variable_key ks b) (normalized_variable_key ks c) = true →
      lexLe (normalized_variable_key ks a) (normalized_variable_key ks c) = true :=
  fun _ _ _ h1 h2 => lexLe_trans _ _ _ h1 h2

lemma sortKey_le_total (ks : List String) :
    ∀ a b : Record,
      (lexLe (normalized_variable_key ks a) (normalized_variable_key ks b) ||
        lexLe (normalized_variable_key ks b) (normalized_variable_key ks a)) = true := by
  intro a b
  rcases lexLe_total (normalized_variable_key ks a) (normalized_variable_key ks b)
    with h | h <;> simp [h]

/-- C7: sorted_metadata is a permutation of its input, its output is
ordered by the case-insensitive key built from the string form of the
requested attributes (missing attribute read as the empty string), and
the sort is stable: records with equal normalized keys keep their
relative input order. -/
theorem sorted_metadata_spec (metadata : List Record) (ks : List String) :
    (sorted_metadata metadata ks).Perm metadata
    ∧ List.Pairwise
        (fun a b =>
          lexLe (normalized_variable_key ks a) (normalized_variable_key ks b) = true)
        (sorted_metadata metadata ks)
    ∧ ∀ v : List String,
        (sorted_metadata metadata ks).filter
            (fun r => normalized_variable_key ks r == v) =
          metadata.filter (fun r => normalized_variable_key ks r == v) := by
  refine ⟨List.mergeSort_perm metadata _,
    List.sorted_mergeSort (sortKey_le_trans ks) (sortKey_le_total ks) metadata, ?_⟩
  intro v
  set le : Record → Record → Bool := fun a b =>
    lexLe (normalized_variable_key ks a) (normalized_variable_key ks b) with hle
  set p : Record → Bool := fun r => normalized_variable_key ks r == v with hp
  have hperm : ((metadata.mergeSort le).filter p).Perm (metadata.filter p) :=
    (List.mergeSort_perm metadata le).filter p
  have hpair : List.Pairwise (fun a b => le a b = true) (metadata.filter p) := by
    apply List.pairwise_of_forall_mem_list
    intro a ha b hb
    have ha' : normalized_variable_key ks a = v := by
      simpa [hp] using List.of_mem_filter ha
    have hb' : normalized_variable_key ks b = v := by
      simpa [hp] using List.of_mem_filter hb
    simp [hle, ha', hb', lexLe_refl]
  have hsub : (metadata.filter p).Sublist (metadata.mergeSort le) :=
    List.sublist_mergeSort (sortKey_le_trans ks) (sortKey_le_total ks) hpair
      (List.filter_sublist metadata)
  have hfix : (metadata.filter p).filter p = metadata.filter p :=
    List.filter_eq_self.mpr fun a ha => List.of_mem_filter ha
  have hsub2 : (metadata.filter p).Sublist ((metadata.mergeSort le).filter p) := by
    have h1 := List.Sublist.filter p hsub
    rw [hfix] at h1
    exact h1
  exact (hsub2.eq_of_length hperm.length_eq.symm).symm

/-- C8: sorting is idempotent: applying sorted_metadata to its own
output with the same sort keys returns that output unchanged. -/
theorem sorted_metadata_idempotent (metadata : List Record) (ks : List String) :
    sorted_metadata (sorted_metadata metadata ks) ks = sorted_metadata metadata ks :=
  List.mergeSort_of_sorted
    (List.sorted_mergeSort (sortKey_le_trans ks) (sortKey_le_total ks) metadata)

lemma keysInOrder_append (md : List Record) (r : Record) (attr : String) :
    keysInOrder (md ++ [r]) attr =
      if (keysInOrder md attr).contains (r.lookup attr) then keysInOrder md attr
      else keysInOrder md attr ++ [r.lookup attr] := by
  simp [keysInOrder, List.foldl_append]

lemma mem_keysInOrder (md : List Record) (attr : String) (r : Record) (h : r ∈ md) :
    r.lookup attr ∈ keysInOrder md attr := by
  induction md using List.reverseRecOn with
  | nil => simp at h
  | append_singleton md q ih =>
    rw [keysInOrder_append]
    rcases List.mem_append.mp h with h' | h'
    · have hin := ih h'
      split
      · exact hin
      · exact List.mem_append_left _ hin
    · have hq : r = q := by simpa using h'
      subst hq
      split
      · next hc => simpa using hc
      · exact List.mem_append_right _ (by simp)

lemma keysInOrder_nodup (md : List Record) (attr : String) :
    (keysInOrder md attr).Nodup := by
  induction md using List.reverseRecOn with
  | nil => simp [keysInOrder]
  | append_singleton md q ih =>
    rw [keysInOrder_append]
    split
    · exact ih
    · next hc =>
      have hnot : q.lookup attr ∉ keysInOrder md attr := by simpa using hc
      simp [List.nodup_append, ih, hnot]

lemma map_fst_graph (ks : List (Option String)) (g : Option String → List Record) :
    (ks.map fun k => (k, g k)).map Prod.fst = ks := by
  induction ks with
  | nil => rfl
  | cons k ks ih => simp [ih]

lemma addToGroup_map (ks : List (Option String)) (g : Option String → List Record)
    (key : Option String) (r : Record) (hnd : ks.Nodup) :
    addToGroup (ks.map fun k => (k, g k)) key r =
      ks.map fun k => (k, if k = key then g k ++ [r] else g k) := by
  induction ks with
  | nil => rfl
  | cons k ks ih =>
    simp only [List.map_cons]
    unfold addToGroup
    by_cases hk : k = key
    · subst hk
      rw [if_pos (by simp)]
      have hnotin : k ∉ ks := (List.nodup_cons.mp hnd).1
      rw [if_pos rfl]
      congr 1
      apply List.map_congr_left
      intro x hx
      rw [if_neg (by rintro rfl; exact hnotin hx)]
    · rw [if_neg (by simpa using hk), if_neg hk, ih (List.nodup_cons.mp hnd).2]

lemma group_metadata_none_eq (md : List Record) (attr : String) :
    group_metadata md attr none =
      (keysInOrder md attr).map fun k =>
        (k, md.filter fun r => r.lookup attr == k) := by
  show md.foldl (groupStep attr) [] = _
  induction md using List.reverseRecOn with
  | nil => rfl
  | append_singleton md r ih =>
    rw [List.foldl_append, List.foldl_cons, List.foldl_nil, ih, keysInOrder_append]
    unfold groupStep
    rw [map_fst_graph]
    by_cases hc : (keysInOrder md attr).contains (r.lookup attr) = true
    · rw [if_pos hc, if_pos hc,
        addToGroup_map (keysInOrder md attr) _ _ _ (keysInOrder_nodup md attr)]
      apply List.map_congr_left
      intro k _
      by_cases hkey : k = r.lookup attr
      · subst hkey
        rw [if_pos rfl]
        simp [List.filter_append]
      · rw [if_neg hkey]
        have hr : (r.lookup attr == k) = false := by
          simpa [beq_iff_eq] using fun h => hkey h.symm
        simp [List.filter_append, hr]
    · rw [if_neg hc, if_neg hc, List.map_append]
      have hnotin : r.lookup attr ∉ keysInOrder md attr := by simpa using hc
      congr 1
      · apply List.map_congr_left
        intro k hk
        have hkey : ¬k = r.lookup attr := fun h => hnotin (h ▸ hk)
        have hr : (r.lookup attr == k) = false := by
          simpa [beq_iff_eq] using fun h => hkey h.symm
        simp [List.filter_append, hr]
      · have hempty : (md.filter fun q => q.lookup attr == r.lookup attr) = [] := by
          rw [List.filter_eq_nil_iff]
          intro q hq hpred
          have heq : List.lookup attr q = List.lookup attr r := by simpa using hpred
          exact hnotin (heq ▸ mem_keysInOrder md attr q hq)
        simp [List.filter_append, hempty]

lemma flatMap_congr_mem {α β : Type} (l : List α) (f g : α → List β)
    (h : ∀ a ∈ l, f a = g a) : l.flatMap f = l.flatMap g := by
  induction l with
  | nil => rfl
  | cons a l ih =>
    simp only [List.flatMap_cons]
    rw [h a (by simp), ih fun x hx => h x (by simp [hx])]

lemma flatMap_filter_cons (attr : String) (ks : List (Option String)) (r : Record)
    (md : List Record) (hnd : ks.Nodup) (hmem : List.lookup attr r ∈ ks) :
    (ks.flatMap fun k => (r :: md).filter fun q => List.lookup attr q == k).Perm
      (r :: ks.flatMap fun k => md.filter fun q => List.lookup attr q == k) := by
  induction ks with
  | nil => simp at hmem
  | cons k ks ih =>
    simp only [List.flatMap_cons]
    by_cases hk : k = List.lookup attr r
    · subst hk
      have hnotin : List.lookup attr r ∉ ks := (List.nodup_cons.mp hnd).1
      have hre : (ks.flatMap fun k' => (r :: md).filter fun q => List.lookup attr q == k')
          = ks.flatMap fun k' => md.filter fun q => List.lookup attr q == k' := by
        apply flatMap_congr_mem
        intro k' hk'
        have hne : (List.lookup attr r == k') = false := by
          simp only [beq_eq_false_iff_ne, ne_eq]
          rintro rfl
          exact hnotin hk'
        simp [List.filter_cons, hne]
      rw [hre]
      have hfil : ((r :: md).filter fun q => List.lookup attr q == List.lookup attr r)
          = r :: md.filter fun q => List.lookup attr q == List.lookup attr r := by
        simp [List.filter_cons]
      rw [hfil]
      exact List.Perm.refl _
    · have hne : (List.lookup attr r == k) = false := by
        simp only [beq_eq_false_iff_ne, ne_eq]
        rintro rfl
        exact hk rfl
      have hmem' : List.lookup attr r ∈ ks := by
        rcases List.mem_cons.mp hmem with h | h
        · exact absurd h.symm hk
        · exact h
      have hperm := ih (List.nodup_cons.mp hnd).2 hmem'
      have hfil : ((r :: md).filter fun q => List.lookup attr q == k)
          = md.filter fun q => List.lookup attr q == k := by
        simp [List.filter_cons, hne]
      rw [hfil]
      exact (List.Perm.append_left _ hperm).trans List.perm_middle

lemma flatMap_filter_perm (attr : String) (ks : List (Option String)) (hnd : ks.Nodup) :
    ∀ md : List Record, (∀ r ∈ md, List.lookup attr r ∈ ks) →
      (ks.flatMap fun k => md.filter fun q => List.lookup attr q == k).Perm md := by
  intro md
  induction md with
  | nil => intro _; simp
  | cons r md ih =>
    intro hcov
    have h1 := flatMap_filter_cons attr ks r md hnd (hcov r (by simp))
    have h2 := ih fun q hq => hcov q (by simp [hq])
    exact h1.trans (h2.cons r)

/-- C2: grouping without sorting partitions the input: the union of the
member lists is a permutation of the original list, every member of a
group has the grouping attribute equal to the group key (absent when
the key is null), the keys appear in first-occurrence (insertion)
order, and each member list is the original list filtered on that key,
hence in original relative order. -/
theorem group_metadata_spec (md : List Record) (attr : String) :
    ((group_metadata md attr none).flatMap Prod.snd).Perm md
    ∧ (∀ k ms, (k, ms) ∈ group_metadata md attr none →
        ∀ r ∈ ms, List.lookup attr r = k)
    ∧ (group_metadata md attr none).map Prod.fst = keysInOrder md attr
    ∧ ∀ k ms, (k, ms) ∈ group_metadata md attr none →
        ms = md.filter fun r => List.lookup attr r == k := by
  rw [group_metadata_none_eq]
  refine ⟨?_, ?_, map_fst_graph _ _, ?_⟩
  · have hbm : (((keysInOrder md attr).map fun k =>
          (k, md.filter fun r => List.lookup attr r == k)).flatMap Prod.snd)
        = (keysInOrder md attr).flatMap fun k =>
            md.filter fun r => List.lookup attr r == k := by
      rw [List.flatMap_map]
    rw [hbm]
    exact flatMap_filter_perm attr _ (keysInOrder_nodup md attr) md
      fun r hr => mem_keysInOrder md attr r hr
  · intro k ms hmem r hr
    obtain ⟨k', _, heq⟩ := List.mem_map.mp hmem
    obtain ⟨hk', hms⟩ := Prod.mk.injEq .. ▸ heq
    subst hk'
    rw [← hms] at hr
    simpa using List.of_mem_filter hr
  · intro k ms hmem
    obtain ⟨k', _, heq⟩ := List.mem_map.mp hmem
    obtain ⟨hk', hms⟩ := Prod.mk.injEq .. ▸ heq
    subst hk'
    exact hms.symm

/-- C2 witness at the spec's own example: grouping two records by exp
yields the ssp group containing exactly the ssp record, whose exp
attribute equals the group key, and that group is the filtered original
list. -/
theorem group_metadata_spec_witness :
    List.lookup "exp" [("var", "tas"), ("exp", "ssp")] = some "ssp"
    ∧ [[("var", "tas"), ("exp", "ssp")]] =
        [[("var", "tas"), ("exp", "ssp")], [("var", "tas"), ("exp", "hist")]].filter
          fun r => List.lookup "exp" r == some "ssp" :=
  ⟨(group_metadata_spec
        [[("var", "tas"), ("exp", "ssp")], [("var", "tas"), ("exp", "hist")]] "exp").2.1
      (some "ssp") [[("var", "tas"), ("exp", "ssp")]] (by decide)
      [("var", "tas"), ("exp", "ssp")] (by decide),
    (group_metadata_spec
        [[("var", "tas"), ("exp", "ssp")], [("var", "tas"), ("exp", "hist")]] "exp").2.2.2
      (some "ssp") [[("var", "tas"), ("exp", "ssp")]] (by decide)⟩

lemma sorted_metadata_nil (l : List Record) : sorted_metadata l [] = l :=
  List.mergeSort_of_sorted (List.pairwise_of_forall_mem_list fun _ _ _ _ => rfl)

lemma lookup_eq_of_mem_nodup (groups : List (Option String × List Record))
    (k : Option String) (ms : List Record)
    (hnd : (groups.map Prod.fst).Nodup) (hmem : (k, ms) ∈ groups) :
    groups.lookup k = some ms := by
  induction groups with
  | nil => simp at hmem
  | cons g rest ih =>
    obtain ⟨k', ms'⟩ := g
    have hnd' : k' ∉ rest.map Prod.fst ∧ (rest.map Prod.fst).Nodup :=
      List.nodup_cons.mp (by simpa using hnd)
    rcases List.mem_cons.mp hmem with h | h
    · obtain ⟨hk, hms⟩ := Prod.mk.injEq .. ▸ h
      subst hk
      subst hms
      simp [List.lookup]
    · have hk' : ¬k = k' := by
        rintro rfl
        exact hnd'.1 (List.mem_map_of_mem Prod.fst h)
      have hb : (k == k') = false := by simpa [beq_iff_eq] using hk'
      simp only [List.lookup, hb]
      exact ih hnd'.2 h

lemma groupKey_le_trans :
    ∀ a b c : Option String,
      decide (normalized_group_key a ≤ normalized_group_key b) = true →
      decide (normalized_group_key b ≤ normalized_group_key c) = true →
      decide (normalized_group_key a ≤ normalized_group_key c) = true := by
  intro a b c h1 h2
  simp only [decide_eq_true_eq] at h1 h2 ⊢
  exact le_trans h1 h2

lemma groupKey_le_total :
    ∀ a b : Option String,
      (decide (normalized_group_key a ≤ normalized_group_key b) ||
        decide (normalized_group_key b ≤ normalized_group_key a)) = true := by
  intro a b
  simp only [Bool.or_eq_true, decide_eq_true_eq]
  exact le_total _ _

lemma sorted_group_metadata_map_fst (groups : List (Option String × List Record))
    (sort : SortSpec) :
    (sorted_group_metadata groups sort).map Prod.fst =
      (groups.map Prod.fst).mergeSort fun a b =>
        decide (normalized_group_key a ≤ normalized_group_key b) := by
  cases sort <;> exact map_fst_graph _ _

lemma mem_sorted_group (groups : List (Option String × List Record))
    (sk : List String) (k : Option String) (ms : List Record)
    (hnd : (groups.map Prod.fst).Nodup) (hmem : (k, ms) ∈ groups) :
    (k, sorted_metadata ms sk) ∈
      (((groups.map Prod.fst).mergeSort fun a b =>
          decide (normalized_group_key a ≤ normalized_group_key b)).map
        fun key => (key, sorted_metadata ((groups.lookup key).getD []) sk)) := by
  have hlk : groups.lookup k = some ms := lookup_eq_of_mem_nodup groups k ms hnd hmem
  have hkmem : k ∈ (groups.map Prod.fst).mergeSort fun a b =>
      decide (normalized_group_key a ≤ normalized_group_key b) := by
    rw [(List.mergeSort_perm (groups.map Prod.fst) _).mem_iff]
    exact List.mem_map_of_mem Prod.fst hmem
  have hin := List.mem_map_of_mem
    (fun key => (key, sorted_metadata ((groups.lookup key).getD []) sk)) hkmem
  simpa [hlk] using hin

/-- C6: sorted_group_metadata orders the groups by their keys
case-insensitively with the null key reading as the empty string; with
True as sort argument each member list is kept in its original order,
while with sort keys each member list is additionally sorted by them. -/
theorem sorted_group_metadata_spec (groups : List (Option String × List Record))
    (sort : SortSpec) (hnd : (groups.map Prod.fst).Nodup) :
    ((sorted_group_metadata groups sort).map Prod.fst).Perm (groups.map Prod.fst)
    ∧ List.Pairwise (fun a b => normalized_group_key a ≤ normalized_group_key b)
        ((sorted_group_metadata groups sort).map Prod.fst)
    ∧ ∀ k ms, (k, ms) ∈ groups →
        (sort = SortSpec.groupsOnly → (k, ms) ∈ sorted_group_metadata groups sort)
        ∧ ∀ ks, sort = SortSpec.byKeys ks →
            (k, sorted_metadata ms ks) ∈ sorted_group_metadata groups sort := by
  refine ⟨?_, ?_, ?_⟩
  · rw [sorted_group_metadata_map_fst]
    exact List.mergeSort_perm _ _
  · rw [sorted_group_metadata_map_fst]
    have hp := List.sorted_mergeSort groupKey_le_trans groupKey_le_total
      (groups.map Prod.fst)
    exact hp.imp fun h => of_decide_eq_true h
  · intro k ms hmem
    constructor
    · rintro rfl
      have h := mem_sorted_group groups [] k ms hnd hmem
      rw [sorted_metadata_nil] at h
      exact h
    · rintro ks rfl
      exact mem_sorted_group groups ks k ms hnd hmem

/-- C6 witness at concrete groups: sorting groups with keys None and
HIST places the null key first (it reads as the empty string), with the
member list kept in original order under the True sort argument. -/
theorem sorted_group_metadata_spec_witness :
    (some "HIST", [[("exp", "HIST"), ("v", "b")], [("exp", "HIST"), ("v", "a")]]) ∈
      sorted_group_metadata
        [(some "HIST", [[("exp", "HIST"), ("v", "b")], [("exp", "HIST"), ("v", "a")]]),
          (none, [[("v", "c")]])]
        SortSpec.groupsOnly :=
  (((sorted_group_metadata_spec
        [(some "HIST", [[("exp", "HIST"), ("v", "b")], [("exp", "HIST"), ("v", "a")]]),
          (none, [[("v", "c")]])]
        SortSpec.groupsOnly (by decide)).2.2
      (some "HIST") [[("exp", "HIST"), ("v", "b")], [("exp", "HIST"), ("v", "a")]]
      (by decide)).1) rfl

lemma setFile_lookup (files : List (String × ProvTable)) (path : String) (t : ProvTable) :
    (setFile files path t).lookup path = some t := by
  induction files with
  | nil => simp [setFile, List.lookup]
  | cons f rest ih =>
    obtain ⟨p, u⟩ := f
    by_cases hp : p = path
    · subst hp
      rw [setFile, if_pos (by simp)]
      simp [List.lookup]
    · rw [setFile, if_neg (by simpa using hp)]
      have hb : (path == p) = false := by
        simpa [beq_iff_eq] using fun h => hp h.symm
      simp only [List.lookup, hb]
      exact ih

lemma save_files (workDir : String) (t : ProvTable) (fs : FileSystem) :
    (ProvenanceLogger._save workDir t fs).files =
      setFile fs.files (ProvenanceLogger.logFilePath workDir) t := by
  unfold ProvenanceLogger._save
  split <;> rfl

lemma save_dirs (workDir : String) (t : ProvTable) (fs : FileSystem) :
    workDir ∈ (ProvenanceLogger._save workDir t fs).dirs := by
  unfold ProvenanceLogger._save
  by_cases hc : fs.dirs.contains workDir = true
  · rw [if_pos hc]
    simpa using hc
  · rw [if_neg hc]
    simp

lemma exitContext_eq_save (kind : ExitKind) (workDir : String) (t : ProvTable)
    (fs : FileSystem) :
    ProvenanceLogger.exitContext kind workDir t fs = ProvenanceLogger._save workDir t fs := by
  cases kind <;> rfl

/-- C4: however the scope is exited, the whole in-memory table is
written to the per-run log file with its parent directory created, so
reopening the file yields the table, which still contains every
successfully logged entry of the session. -/
theorem provenance_exit_spec (kind : ExitKind) (workDir : String) (fs : FileSystem)
    (t0 : ProvTable) (pre post : List (String × ProvRecord)) (filename : String)
    (record : ProvRecord)
    (hok : (ProvenanceLogger.log (runSession t0 pre) filename record).1 = none) :
    (ProvenanceLogger.exitContext kind workDir
        (runSession t0 (pre ++ (filename, record) :: post)) fs).files.lookup
        (ProvenanceLogger.logFilePath workDir) =
      some (runSession t0 (pre ++ (filename, record) :: post))
    ∧ workDir ∈ (ProvenanceLogger.exitContext kind workDir
        (runSession t0 (pre ++ (filename, record) :: post)) fs).dirs
    ∧ (runSession t0 (pre ++ (filename, record) :: post)).lookup filename =
        some record := by
  rw [exitContext_eq_save]
  refine ⟨?_, save_dirs _ _ _, ?_⟩
  · rw [save_files]
    exact setFile_lookup _ _ _
  · have hc : ¬((runSession t0 pre).map Prod.fst).contains filename = true := by
      intro hc
      unfold ProvenanceLogger.log at hok
      rw [if_pos hc] at hok
      simp at hok
    have hstep : (ProvenanceLogger.log (runSession t0 pre) filename record).2 =
        runSession t0 pre ++ [(filename, record)] := by
      unfold ProvenanceLogger.log
      rw [if_neg hc]
    have hsession : runSession t0 (pre ++ (filename, record) :: post) =
        runSession ((ProvenanceLogger.log (runSession t0 pre) filename record).2) post := by
      simp [runSession, List.foldl_append]
    rw [hsession]
    apply runSession_preserves_lookup
    rw [hstep]
    exact lookup_append_new _ _ _ (by simpa using hc)

/-- C4 witness at a concrete run: one successful log call, exit through
an exception; the file then holds the table with the logged entry. -/
theorem provenance_exit_spec_witness :
    (ProvenanceLogger.exitContext (ExitKind.raised "boom") "work"
        (runSession [] ([] ++ ("out.nc", [("caption", "x")]) :: [])) ⟨[], []⟩).files.lookup
        (ProvenanceLogger.logFilePath "work") =
      some (runSession [] ([] ++ ("out.nc", [("caption", "x")]) :: []))
    ∧ "work" ∈ (ProvenanceLogger.exitContext (ExitKind.raised "boom") "work"
        (runSession [] ([] ++ ("out.nc", [("caption", "x")]) :: [])) ⟨[], []⟩).dirs
    ∧ (runSession [] ([] ++ ("out.nc", [("caption", "x")]) :: [])).lookup "out.nc" =
        some [("caption", "x")] :=
  provenance_exit_spec (ExitKind.raised "boom") "work" ⟨[], []⟩ [] [] [] "out.nc"
    [("caption", "x")] (by decide)

lemma makedirs_loop_error (ds : List String) :
    ∀ s : List String, (∃ d ∈ ds, d ∈ s) →
      ∃ msg s', ds.foldlM makedirs s = Except.error (msg, s') ∧ ∀ p ∈ s, p ∈ s' := by
  induction ds with
  | nil =>
    rintro s ⟨d, hd, _⟩
    simp at hd
  | cons d ds ih =>
    rintro s ⟨d', hd', hmem⟩
    by_cases hc : s.contains d = true
    · refine ⟨"FileExistsError: " ++ d, s, ?_, fun p hp => hp⟩
      rw [List.foldlM_cons]
      unfold makedirs
      rw [if_pos hc]
      rfl
    · rcases List.mem_cons.mp hd' with h | h
      · subst h
        exact absurd (by simpa using hmem) hc
      · obtain ⟨msg, s', hrun, hsub⟩ :=
          ih (s ++ [d]) ⟨d', h, List.mem_append_left _ hmem⟩
        refine ⟨msg, s', ?_, fun p hp => hsub p (List.mem_append_left _ hp)⟩
        rw [List.foldlM_cons]
        unfold makedirs
        rw [if_neg hc]
        exact hrun

/-- C5: with an already existing output directory and neither --force
nor --ignore-existing, run_diagnostic logs the abort error, the
directory-creation loop raises FileExistsError, and at that abort every
directory that existed before still exists: nothing was emptied. -/
theorem run_diagnostic_dirs_spec (fs : List String) (writeNetcdf writePlots : Bool)
    (workDir plotDir : String)
    (hex : ((if writeNetcdf then [workDir] else []) ++
        (if writePlots then [plotDir] else [])).filter fs.contains ≠ []) :
    (run_diagnostic_dirs fs false false writeNetcdf writePlots workDir plotDir).1 = true
    ∧ ∃ msg fs',
        (run_diagnostic_dirs fs false false writeNetcdf writePlots workDir plotDir).2 =
          Except.error (msg, fs')
        ∧ ∀ p ∈ fs, p ∈ fs' := by
  unfold run_diagnostic_dirs
  simp only [Bool.not_false, Bool.and_true, Bool.and_false, Bool.false_and,
    Bool.if_false_left, if_false, Bool.false_eq_true]
  constructor
  · simpa using hex
  · obtain ⟨x, hx⟩ := List.exists_mem_of_ne_nil _ hex
    have hxO : x ∈ (if writeNetcdf then [workDir] else []) ++
        (if writePlots then [plotDir] else []) := (List.mem_filter.mp hx).1
    have hxfs : x ∈ fs := by simpa using (List.mem_filter.mp hx).2
    exact makedirs_loop_error _ fs ⟨x, hxO, hxfs⟩

/-- C5 witness at a concrete input: the work directory already exists,
no flag is given; the error is logged, the creation loop raises, and
the pre-existing directory is still there at the abort. -/
theorem run_diagnostic_dirs_spec_witness :
    (run_diagnostic_dirs ["/out/work"] false false true false "/out/work" "/plot").1 = true
    ∧ ∃ msg fs',
        (run_diagnostic_dirs ["/out/work"] false false true false "/out/work" "/plot").2 =
          Except.error (msg, fs')
        ∧ ∀ p ∈ ["/out/work"], p ∈ fs' :=
  run_diagnostic_dirs_spec ["/out/work"] true false "/out/work" "/plot" (by decide)

/-- C1 witness at a concrete input: with no constraint every record is
returned. -/
theorem select_metadata_spec_witness :
    select_metadata [[("var", "tas")], [("var", "pr")]] [] =
      [[("var", "tas")], [("var", "pr")]] :=
  (select_metadata_spec [[("var", "tas")], [("var", "pr")]] []).2

/-- C7 witness at a concrete input: the case-insensitive sort on two
records is a permutation of the input. -/
theorem sorted_metadata_spec_witness :
    (sorted_metadata [[("n", "B")], [("n", "a")]] ["n"]).Perm
      [[("n", "B")], [("n", "a")]] :=
  (sorted_metadata_spec [[("n", "B")], [("n", "a")]] ["n"]).1

/-- C8 witness at a concrete input: resorting the sorted two-record
list changes nothing. -/
theorem sorted_metadata_idempotent_witness :
    sorted_metadata (sorted_metadata [[("n", "b")], [("n", "A")]] ["n"]) ["n"] =
      sorted_metadata [[("n", "b")], [("n", "A")]] ["n"] :=
  sorted_metadata_idempotent [[("n", "b")], [("n", "A")]] ["n"]

/-- C9 witness at a concrete input: the albedo loader asserts on an
unsupported variable. -/
theorem load_observation_data_assertion_witness :
    AlbedoDiagnostic._load_observation_data "ta" = Except.error "Not supported yet" :=
  (load_observation_data_assertion "ta").1.mpr (by decide)
